import Mathlib

/-!
A verification development for the segregated-free-list dynamic memory
allocator in `mm.c`.

The development contains three shallow embeddings of the allocator code,
each faithful to the source at a different granularity:

* a word-level operational model (`WState`, `mallocW`, `freeW`, `reallocW`,
  `callocW`, ...): memory is a partial map from byte addresses to stored
  words (every header, footer and free-list link in the C code is read and
  written through 8-aligned `size_t` accesses, so each such access touches
  exactly one cell of the map; `memcpy`/`memset` move cells pointwise).
  Reading an address the program never made valid is modelled as `none`
  (undefined behaviour); writes are total, modelling the flat backing
  buffer provided by `memlib`.  Pointer arithmetic wraps modulo `2^64`
  exactly as `size_t`/`char *` arithmetic does in the source.
* a block-sequence model (`coalesceZ`, `placeZ`, ...): the physical heap as
  the list of its blocks in address order, used for the header/footer-level
  invariants (no two adjacent free blocks, minimum block size).
* the pure helper functions (`iterate`, `asizeOf`, `findFitL`) taken
  directly from the source.
-/

namespace MM

/-- `2^64`, the modulus of `size_t` and pointer arithmetic. -/
def P64 : Nat := 18446744073709551616

/-- ALIGNMENT from mm.c (16). `align` rounds up to a multiple of 16. -/
def align (x : Nat) : Nat := 16 * ((x + 16 - 1) / 16)

/-- MAX from mm.c. -/
def MAXn (x y : Nat) : Nat := if x > y then x else y

/-- MIN from mm.c. -/
def MINn (x y : Nat) : Nat := if x < y then x else y

/-- PACK(size, alloc) = size | alloc.  All sizes the allocator packs are
16-aligned and the flag is 0 or 1, so the bitwise or is addition. -/
def packW (size alloc : Nat) : Nat := size + alloc

/-- GET_SIZE: `GET(p) & ~0xf` on a 64-bit word, i.e. bits 4..63. -/
def sizeW (v : Nat) : Nat := (v % P64) / 16 * 16

/-- GET_ALLOC: `GET(p) & 0x1`. -/
def allocW (v : Nat) : Nat := v % 2

/-- HDRP: `bp - WSIZE` as wrapping pointer arithmetic. -/
def hdrA (bp : Nat) : Nat := (bp + P64 - 8) % P64

/-- `a - b` in wrapping `size_t`/pointer arithmetic (for `a < 2^64`). -/
def subW (a b : Nat) : Nat := (a + P64 - b % P64) % P64

/-- The word-addressed heap memory: `none` marks addresses the program has
no defined value at. -/
def Mem : Type := Nat → Option Nat

/-- Write one cell (writes always land in the flat backing buffer). -/
def PUTW (m : Mem) (a v : Nat) : Mem := fun x => if x = a then some v else m x

/-- `memcpy(dst, src, n)`: move `n` consecutive cells (bytewise copy in the
source; cell-wise here, carrying undefinedness along). -/
def memcpyW (m : Mem) (dst src n : Nat) : Mem :=
  fun a => if dst ≤ a ∧ a < dst + n then m (src + (a - dst)) else m a

/-- `memset(p, 0, n)`. -/
def memsetW (m : Mem) (p n : Nat) : Mem :=
  fun a => if p ≤ a ∧ a < p + n then some 0 else m a

/-- The allocator state: heap memory, the `seg[11]` class-head array
(0 = null; indices ≥ 11 unused), the current break, the backing store's
limit, and whether `mem_sbrk` succeeds (models resource exhaustion). -/
structure WState where
  mem : Mem
  seg : Nat → Nat
  brk : Nat
  maxA : Nat
  growOk : Bool

/-- Update one entry of the `seg` array. -/
def updateSeg (f : Nat → Nat) (k v : Nat) : Nat → Nat :=
  fun j => if j = k then v else f j

/-- FTRP: `bp + GET_SIZE(HDRP(bp)) - DSIZE`; reads the header from memory
exactly as the macro does. -/
def ftrpW (m : Mem) (bp : Nat) : Option Nat :=
  (m (hdrA bp)).map (fun h => (bp + sizeW h + P64 - 16) % P64)

/-- NEXT_BLKP: `bp + GET_SIZE(bp - WSIZE)`. -/
def nextBlkpW (m : Mem) (bp : Nat) : Option Nat :=
  (m (hdrA bp)).map (fun h => (bp + sizeW h) % P64)

/-- PREV_BLKP: `bp - GET_SIZE(bp - DSIZE)`. -/
def prevBlkpW (m : Mem) (bp : Nat) : Option Nat :=
  (m ((bp + P64 - 16) % P64)).map (fun h => (bp + P64 - sizeW h) % P64)

/-- `iterate` from mm.c: the size-class index of a block size. -/
def iterate (size : Nat) : Nat :=
  if size < 32 then 0
  else if 32 ≤ size ∧ size < 64 then 1
  else if 64 ≤ size ∧ size < 128 then 2
  else if 128 ≤ size ∧ size < 256 then 3
  else if 256 ≤ size ∧ size < 512 then 4
  else if 512 ≤ size ∧ size < 1024 then 5
  else if 1024 ≤ size ∧ size < 2048 then 6
  else if 2048 ≤ size ∧ size < 4096 then 7
  else if 4096 ≤ size ∧ size < 8192 then 8
  else if 8192 ≤ size ∧ size < 16384 then 9
  else 10

/-- The adjusted block size computed by `malloc`:
`size <= DSIZE ? 2*DSIZE : DSIZE*((size + DSIZE + (DSIZE-1))/DSIZE)`,
where the sum `size + DSIZE + (DSIZE-1)` is `size_t` arithmetic and wraps
modulo `2^64` (so for `size ≥ 2^64 - 31` the adjusted size collapses to a
small value, e.g. 16 at `size = 2^64 - 1`). -/
def asizeOf (n : Nat) : Nat :=
  if n ≤ 16 then 32 else 16 * (((n + 16 + 15) % P64) / 16)

/-- `insert` from mm.c.  Reads the block's size from its header, selects the
class with `iterate`, and pushes the block at the head of that class's
intrusive list.  `PUT(bp, v)` writes the block's prev link (PREVF) and
`PUT(bp + WSIZE, v)` its next link (NEXTF). -/
def insertW (bp : Nat) (s : WState) : Option WState :=
  match s.mem (hdrA bp) with
  | none => none
  | some h =>
    let k := iterate (sizeW h)
    if s.seg k ≠ 0 then
      let m1 := PUTW s.mem (bp + 8) (s.seg k)
      let m2 := PUTW m1 (s.seg k) bp
      let m3 := PUTW m2 bp 0
      some { s with mem := m3, seg := updateSeg s.seg k bp }
    else
      some { s with mem := PUTW (PUTW s.mem (bp + 8) 0) bp 0,
                    seg := updateSeg s.seg k bp }

/-- `delete` from mm.c.  Scans `seg[0..10]` for `bp`; a found head is
replaced by its next link (clearing the new head's prev when it exists,
else zeroing the class), and a non-head block is spliced out through its
own stored prev/next links.  The source reads `PREVF(bp)`/`NEXTF(bp)`
through memory at each use; no write in this function touches those two
cells before their last use, so reading them once up front is faithful. -/
def deleteW (bp : Nat) (s : WState) : Option WState :=
  match s.mem bp, s.mem (bp + 8) with
  | some p, some nx =>
    match (List.range 11).find? (fun i => s.seg i == bp) with
    | some i =>
      if p = 0 ∧ nx ≠ 0 then
        some { s with mem := PUTW s.mem nx 0, seg := updateSeg s.seg i nx }
      else
        some { s with seg := updateSeg s.seg i 0 }
    | none =>
      if p ≠ 0 ∧ nx = 0 then
        some { s with mem := PUTW s.mem (p + 8) 0 }
      else
        some { s with mem := PUTW (PUTW s.mem nx p) (p + 8) nx }
  | _, _ => none

/-- `coalesce`, case "both neighbors allocated": insert `bp` directly. -/
def coalCase1 (bp : Nat) (s : WState) : Option (Nat × WState) :=
  (insertW bp s).map (fun s1 => (bp, s1))

/-- `coalesce`, case "only successor free": unlink the successor, grow the
header/footer of `bp` to the summed size (the footer address is computed
from the just-rewritten header, as FTRP does). -/
def coalBody2 (bp nb size2 : Nat) (s : WState) : Option WState :=
  (deleteW nb s).bind (fun s1 =>
    (ftrpW (PUTW s1.mem (hdrA bp) (packW size2 0)) bp).bind (fun f =>
      insertW bp { s1 with
        mem := PUTW (PUTW s1.mem (hdrA bp) (packW size2 0)) f
          (packW size2 0) }))

def coalCase2 (bp nb size2 : Nat) (s : WState) : Option (Nat × WState) :=
  (coalBody2 bp nb size2 s).map (fun s1 => (bp, s1))

/-- `coalesce`, case "only predecessor free": unlink the predecessor,
rewrite its header and `bp`'s old footer, retarget to the predecessor. -/
def coalBody3 (bp pb size2 : Nat) (s : WState) : Option WState :=
  (deleteW pb s).bind (fun s1 =>
    (ftrpW (PUTW s1.mem (hdrA pb) (packW size2 0)) bp).bind (fun f =>
      insertW pb { s1 with
        mem := PUTW (PUTW s1.mem (hdrA pb) (packW size2 0)) f
          (packW size2 0) }))

def coalCase3 (bp pb size2 : Nat) (s : WState) : Option (Nat × WState) :=
  (coalBody3 bp pb size2 s).map (fun s1 => (pb, s1))

/-- `coalesce`, case "both neighbors free": unlink both, rewrite the
predecessor's header and the successor's footer, retarget. -/
def coalBody4 (bp pb nb size2 : Nat) (s : WState) : Option WState :=
  (deleteW pb s).bind (fun s1 =>
    (deleteW nb s1).bind (fun s2 =>
      (nextBlkpW (PUTW s2.mem (hdrA pb) (packW size2 0)) bp).bind (fun nb2 =>
        (ftrpW (PUTW s2.mem (hdrA pb) (packW size2 0)) nb2).bind (fun f2 =>
          insertW pb { s2 with
            mem := PUTW (PUTW s2.mem (hdrA pb) (packW size2 0)) f2
              (packW size2 0) }))))

def coalCase4 (bp pb nb size2 : Nat) (s : WState) : Option (Nat × WState) :=
  (coalBody4 bp pb nb size2 s).map (fun s1 => (pb, s1))

/-- `coalesce` from mm.c: boundary-tag merge of `bp` with its free physical
neighbors, ending in exactly one `insert` of the resulting block, whose
payload address is returned.  Writes are sequenced exactly as in the
source; in particular every FTRP/NEXT_BLKP re-reads headers from the
memory produced by the preceding writes. -/
def coalesceW (bp : Nat) (s : WState) : Option (Nat × WState) :=
  (prevBlkpW s.mem bp).bind (fun pb =>
  (ftrpW s.mem pb).bind (fun fpb =>
  (s.mem fpb).bind (fun fv =>
  (nextBlkpW s.mem bp).bind (fun nb =>
  (s.mem (hdrA nb)).bind (fun hv =>
  (s.mem (hdrA bp)).bind (fun h =>
  if (decide (allocW fv = 1) || decide (pb = bp)) && decide (allocW hv = 1) then
    coalCase1 bp s
  else if (decide (allocW fv = 1) || decide (pb = bp))
      && !(decide (allocW hv = 1)) then
    coalCase2 bp nb (sizeW h + sizeW hv) s
  else if !(decide (allocW fv = 1) || decide (pb = bp))
      && decide (allocW hv = 1) then
    (s.mem (hdrA pb)).bind (fun ph => coalCase3 bp pb (sizeW h + sizeW ph) s)
  else
    (s.mem (hdrA pb)).bind (fun ph =>
    (ftrpW s.mem nb).bind (fun fnb =>
    (s.mem fnb).bind (fun fnv =>
      coalCase4 bp pb nb (sizeW h + sizeW ph + sizeW fnv) s)))))))))

/-- `mem_sbrk` of memlib: returns the old break and advances it, or the
failure sentinel `(void *)-1` (here `P64 - 1`) leaving everything
untouched when the backing store cannot grow. -/
def memSbrkW (incr : Nat) (s : WState) : Nat × WState :=
  if s.growOk ∧ s.brk + incr ≤ s.maxA then
    (s.brk, { s with brk := s.brk + incr })
  else (P64 - 1, s)

/-- The byte count `extend_heap` grows by: the word count rounded up to an
even number of words, times `WSIZE`. -/
def extSize (words : Nat) : Nat :=
  if words % 2 = 1 then (words + 1) * 8 else words * 8

/-- The successful tail of `extend_heap`: write the new free block's
header/footer over the fresh region at `bp`, write a fresh allocated
epilogue header after it, and coalesce. -/
def extendCore (bp size : Nat) (s1 : WState) : Option (Nat × WState) :=
  (ftrpW (PUTW s1.mem (hdrA bp) (packW size 0)) bp).bind (fun f =>
    (nextBlkpW (PUTW (PUTW s1.mem (hdrA bp) (packW size 0)) f (packW size 0))
        bp).bind (fun nb =>
      coalesceW bp { s1 with
        mem := PUTW (PUTW (PUTW s1.mem (hdrA bp) (packW size 0)) f
          (packW size 0)) (hdrA nb) (packW 0 1) }))

/-- `extend_heap` from mm.c: round the word count up to an even number of
words, grow the backing store (returning null with no state change on
failure), write the new free block's header/footer and a fresh epilogue
header, and coalesce.  Returns the (possibly merged) block, 0 for null. -/
def extendHeapW (words : Nat) (s : WState) : Option (Nat × WState) :=
  if (memSbrkW (extSize words) s).1 = P64 - 1 then
    some (0, (memSbrkW (extSize words) s).2)
  else
    extendCore (memSbrkW (extSize words) s).1 (extSize words)
      (memSbrkW (extSize words) s).2

/-- The inner loop of `find_fit`: follow one class's list from its head
(`bp = seg[i]; bp != 0; bp = NEXTF(bp)`) and return the first block whose
header size is at least `asize` (0 when the class has no fit).  `fuel`
bounds the traversal; running out of fuel is a model failure (`none`),
never a result the source could produce. -/
def fitInner (m : Mem) (asize : Nat) : Nat → Nat → Option Nat
  | _, 0 => some 0
  | 0, _ + 1 => none
  | fuel + 1, bp + 1 =>
    match m (hdrA (bp + 1)) with
    | none => none
    | some h =>
      if asize ≤ sizeW h then some (bp + 1)
      else
        match m (bp + 1 + 8) with
        | none => none
        | some nxt => fitInner m asize fuel nxt

/-- The outer loop of `find_fit`: try each remaining class in ascending
order. -/
def fitOuter (m : Mem) (seg : Nat → Nat) (asize fuel : Nat) :
    List Nat → Option Nat
  | [] => some 0
  | i :: rest =>
    match fitInner m asize fuel (seg i) with
    | none => none
    | some 0 => fitOuter m seg asize fuel rest
    | some bp => some bp

/-- `find_fit` from mm.c: scan classes `iterate asize .. 10`, each list in
order from its head, returning the first sufficiently large block
(0 = NULL when none fits). -/
def findFitW (fuel : Nat) (s : WState) (asize : Nat) : Option Nat :=
  fitOuter s.mem s.seg asize fuel ((List.range 11).drop (iterate asize))

/-- `place` from mm.c: carve `asize` out of the free block `bp` (of header
size `csize`).  When `csize - asize` (as `size_t` arithmetic) is at least
`2*DSIZE`, write the allocated header/footer at `asize`, unlink `bp`, give
the remainder a free header/footer and coalesce it; otherwise allocate the
whole block and unlink it. -/
def placeW (bp asize : Nat) (s : WState) : Option WState :=
  match s.mem (hdrA bp) with
  | none => none
  | some h =>
    let csize := sizeW h
    if 32 ≤ subW csize asize then
      let m1 := PUTW s.mem (hdrA bp) (packW asize 1)
      match ftrpW m1 bp with
      | none => none
      | some f =>
        match deleteW bp { s with mem := PUTW m1 f (packW asize 1) } with
        | none => none
        | some s2 =>
          match nextBlkpW s2.mem bp with
          | none => none
          | some bp2 =>
            let m3 := PUTW s2.mem (hdrA bp2) (packW (subW csize asize) 0)
            match ftrpW m3 bp2 with
            | none => none
            | some f2 =>
              match coalesceW bp2
                  { s2 with mem := PUTW m3 f2 (packW (subW csize asize) 0) } with
              | none => none
              | some r => some r.2
    else
      let m1 := PUTW s.mem (hdrA bp) (packW csize 1)
      match ftrpW m1 bp with
      | none => none
      | some f =>
        deleteW bp { s with mem := PUTW m1 f (packW csize 1) }

/-- `malloc` from mm.c.  Returns the payload pointer (0 = NULL) and the
state after the call. -/
def mallocW (fuel n : Nat) (s : WState) : Option (Nat × WState) :=
  if n = 0 then some (0, s)
  else
    let asize := asizeOf n
    match findFitW fuel s asize with
    | none => none
    | some bp =>
      if bp ≠ 0 then
        match placeW bp asize s with
        | none => none
        | some s1 => some (bp, s1)
      else
        let extendsize := MAXn asize 32
        match extendHeapW (extendsize / 8) s with
        | none => none
        | some (bp2, s2) =>
          if bp2 = 0 then some (0, s2)
          else
            match placeW bp2 asize s2 with
            | none => none
            | some s3 => some (bp2, s3)

/-- `free` from mm.c: read the size from the header at `ptr - 8`, rewrite
header and footer with the allocated bit cleared, and coalesce.  There is
no null or validity test before the header read. -/
def freeW (ptr : Nat) (s : WState) : Option WState :=
  match s.mem (hdrA ptr) with
  | none => none
  | some h =>
    let size := sizeW h
    let m1 := PUTW s.mem (hdrA ptr) (packW size 0)
    match ftrpW m1 ptr with
    | none => none
    | some f =>
      match coalesceW ptr { s with mem := PUTW m1 f (packW size 0) } with
      | none => none
      | some r => some r.2

/-- The byte count `realloc` copies:
`MIN(GET_SIZE(HDRP(oldptr)) - WSIZE, size)` where `h` is the old block's
header word. -/
def updateSizeW (h n : Nat) : Nat := MINn (subW (sizeW h) 8) n

/-- `realloc` from mm.c.  Note the source allocates `update = malloc(size)`
before testing `oldptr == NULL` or `size == 0`; the null branch then calls
`malloc(size)` a second time and returns that. -/
def reallocW (fuel oldptr n : Nat) (s : WState) : Option (Nat × WState) :=
  match mallocW fuel n s with
  | none => none
  | some (update, s1) =>
    if oldptr = 0 then mallocW fuel n s1
    else if n = 0 then
      match freeW oldptr s1 with
      | none => none
      | some s2 => some (0, s2)
    else
      match s1.mem (hdrA oldptr) with
      | none => none
      | some h =>
        let m2 := memcpyW s1.mem update oldptr (updateSizeW h n)
        match freeW oldptr { s1 with mem := m2 } with
        | none => none
        | some s3 => some (update, s3)

/-- `calloc` from mm.c: `size *= nmemb` in wrapping `size_t` arithmetic,
`malloc` that many bytes, and zero-fill them when the result is non-null.
There is no overflow test. -/
def callocW (fuel nmemb n : Nat) (s : WState) : Option (Nat × WState) :=
  let sz := (n * nmemb) % P64
  match mallocW fuel sz s with
  | none => none
  | some (p, s1) =>
    if p ≠ 0 then some (p, { s1 with mem := memsetW s1.mem p sz })
    else some (p, s1)

/-- `mm_init` from mm.c, starting from an empty backing store whose region
begins at `base`: grab two words, write the padding word and the
prologue/epilogue framing, and extend the heap by CHUNKSIZE (32) words.
`none` when initialization reports failure. -/
def mmInitW (base maxA : Nat) : Option WState :=
  let s0 : WState :=
    { mem := fun _ => none, seg := fun _ => 0, brk := base, maxA := maxA,
      growOk := true }
  let r := memSbrkW 16 s0
  if r.1 = P64 - 1 then none
  else
    let hl := r.1
    let m1 := PUTW r.2.mem hl 0
    let m2 := PUTW m1 (hl + 8) (packW 16 1)
    let m3 := PUTW m2 (hl + 16) (packW 16 1)
    let m4 := PUTW m3 (hl + 24) (packW 0 1)
    match extendHeapW 32 { r.2 with mem := m4 } with
    | none => none
    | some (bp, s1) => if bp = 0 then none else some s1

/-! ## The abstract segregated-list view of `find_fit`

`find_fit` only reads the free lists, so it is also embedded with each
class's list reified as a Lean list (head first, which is
most-recently-inserted first because `insert` pushes at the head).  A free
block is a pair (payload address, header size). -/

/-- One class's scan: first block whose size is at least `asize`. -/
def findClass (asize : Nat) : List (Nat × Nat) → Option (Nat × Nat)
  | [] => none
  | b :: rest => if asize ≤ b.2 then some b else findClass asize rest

/-- The ascending scan over the remaining classes. -/
def findClasses (seg : Nat → List (Nat × Nat)) (asize : Nat) :
    List Nat → Option (Nat × Nat)
  | [] => none
  | i :: rest =>
    match findClass asize (seg i) with
    | some b => some b
    | none => findClasses seg asize rest

/-- `find_fit` over reified lists: classes `iterate asize .. 10` in
ascending order, each list scanned from its head. -/
def findFitL (seg : Nat → List (Nat × Nat)) (asize : Nat) :
    Option (Nat × Nat) :=
  findClasses seg asize ((List.range 11).drop (iterate asize))

/-- `insert` over reified lists: push at the head of the class chosen by
the block's size. -/
def insertL (seg : Nat → List (Nat × Nat)) (b : Nat × Nat) :
    Nat → List (Nat × Nat) :=
  fun j => if j = iterate b.2 then b :: seg j else seg j

/-! ## The block-sequence view of the physical heap

For the header/footer-level invariants the heap is the list of its blocks
in address order.  The zero `padding` word written by `mm_init` below the
first block makes `PREV_BLKP(bp) == bp` there (the short-circuit in
`coalesce`), and the epilogue header is always allocated, so both
boundaries of the block list behave as allocated neighbors; the model
returns `true` for the allocated-bit of a missing boundary accordingly. -/

/-- One physical block: its header size and allocated bit. -/
structure Block where
  sz : Nat
  alloc : Bool
deriving DecidableEq

/-- A block when it is free, as seen by the coalescer's neighbor tests. -/
def freeOpt (x : Block) : Option Block := if x.alloc then none else some x

/-- The physical predecessor when it exists and is free
(`GET_ALLOC(FTRP(PREV_BLKP(bp)))` with the `PREV_BLKP(bp) == bp`
short-circuit at the low boundary). -/
def prevFreeZ (pre : List Block) : Option Block := pre.getLast?.bind freeOpt

/-- The physical successor when it exists and is free
(`GET_ALLOC(HDRP(NEXT_BLKP(bp)))`; the epilogue boundary is allocated). -/
def nextFreeZ (post : List Block) : Option Block := post.head?.bind freeOpt

/-- `coalesce` on the block sequence: `pre` and `post` are the blocks
physically below and above `b`.  The four cases of the source merge `b`
with whichever neighbors are free and end in exactly one `insert`; the
returned number counts the `insert` calls performed. -/
def coalesceZ (pre : List Block) (b : Block) (post : List Block) :
    List Block × Nat :=
  match prevFreeZ pre, nextFreeZ post with
  | none, none => (pre ++ b :: post, 1)
  | none, some n => (pre ++ ⟨b.sz + n.sz, false⟩ :: post.tail, 1)
  | some p, none => (pre.dropLast ++ ⟨p.sz + b.sz, false⟩ :: post, 1)
  | some p, some n =>
      (pre.dropLast ++ ⟨p.sz + b.sz + n.sz, false⟩ :: post.tail, 1)

/-- `free` on the block sequence: clear the allocated bit, then coalesce. -/
def freeZ (pre : List Block) (b : Block) (post : List Block) :
    List Block × Nat :=
  coalesceZ pre ⟨b.sz, false⟩ post

/-- `place` on the block sequence: split when `csize - asize` (in `size_t`
arithmetic) is at least `2*DSIZE`, handing the remainder to `coalesce`;
otherwise allocate the whole block. -/
def placeZ (pre : List Block) (b : Block) (post : List Block)
    (asize : Nat) : List Block × Nat :=
  if 32 ≤ subW b.sz asize then
    coalesceZ (pre ++ [⟨asize, true⟩]) ⟨subW b.sz asize, false⟩ post
  else
    (pre ++ ⟨b.sz, true⟩ :: post, 0)

/-- `extend_heap` on the block sequence: the fresh free block appears after
every existing block (the new epilogue above it is the allocated
boundary), and is coalesced. -/
def extendZ (h : List Block) (sz : Nat) : List Block × Nat :=
  coalesceZ h ⟨sz, false⟩ []

/-- Invariant 3 of the specification: no two physically adjacent blocks are
both free. -/
def noAdjFree (l : List Block) : Prop :=
  List.Chain' (fun x y => x.alloc = true ∨ y.alloc = true) l

/-- Every free block has at least the minimum block size. -/
def minFree (l : List Block) : Prop :=
  ∀ x ∈ l, x.alloc = false → 32 ≤ x.sz

/-! ## C5: the size-class map -/

/-- C5: `classOf` (the source's `iterate`) is exactly strict range
membership against the boundaries 32, 64, 128, 256, 512, 1024, 2048, 4096,
8192, 16384: bucket 0 below 32, bucket 10 from 16384 on, and each value of
`iterate` characterizes its half-open range; the result never exceeds 10.
The quoted edges 31↦0, 32↦1, 8191↦8, 8192↦9 are instances of the listed
equivalences. -/
theorem iterate_strict_ranges : ∀ s : Nat,
    (iterate s = 0 ↔ s < 32) ∧ (iterate s = 1 ↔ 32 ≤ s ∧ s < 64) ∧
    (iterate s = 2 ↔ 64 ≤ s ∧ s < 128) ∧ (iterate s = 3 ↔ 128 ≤ s ∧ s < 256) ∧
    (iterate s = 4 ↔ 256 ≤ s ∧ s < 512) ∧ (iterate s = 5 ↔ 512 ≤ s ∧ s < 1024) ∧
    (iterate s = 6 ↔ 1024 ≤ s ∧ s < 2048) ∧ (iterate s = 7 ↔ 2048 ≤ s ∧ s < 4096) ∧
    (iterate s = 8 ↔ 4096 ≤ s ∧ s < 8192) ∧ (iterate s = 9 ↔ 8192 ≤ s ∧ s < 16384) ∧
    (iterate s = 10 ↔ 16384 ≤ s) ∧ iterate s ≤ 10 := by
  intro s
  unfold iterate
  repeat' split
  all_goals omega

/-- `iterate` stays below the seg-array bound. -/
theorem iterate_lt_eleven (s : Nat) : iterate s < 11 := by
  have h := (iterate_strict_ranges s).2.2.2.2.2.2.2.2.2.2.2
  omega

/-! ## C6: adjusted size and the fit search -/

/-- One class's scan is `List.find?` with the sufficiency predicate. -/
theorem findClass_eq_find (asize : Nat) (l : List (Nat × Nat)) :
    findClass asize l = l.find? (fun b => decide (asize ≤ b.2)) := by
  induction l with
  | nil => rfl
  | cons b rest ih =>
    simp only [findClass, List.find?]
    by_cases h : asize ≤ b.2
    · simp [h]
    · simp [h, ih]

/-- The class-by-class scan is `List.find?` over the concatenation of the
scanned classes in scan order. -/
theorem findClasses_eq_find (seg : Nat → List (Nat × Nat)) (asize : Nat)
    (is : List Nat) :
    findClasses seg asize is =
      (is.flatMap seg).find? (fun b => decide (asize ≤ b.2)) := by
  induction is with
  | nil => rfl
  | cons i rest ih =>
    simp only [findClasses, List.flatMap_cons, findClass_eq_find,
      List.find?_append, ih]
    cases h : (seg i).find? (fun b => decide (asize ≤ b.2)) <;>
      simp [h, Option.orElse]

/-- C6 (counterexample): in the source the adjusted size is computed in
wrapping `size_t` arithmetic, so at `n = 2^64 - 1` the sum `n + 31` wraps
to 30 and `malloc` computes an adjusted size of 16 — not
`align(n + 16)`-with-minimum-32, which would be `2^64 + 16`. -/
theorem malloc_adjusted_size_cex :
    asizeOf (P64 - 1) = 16
    ∧ MAXn (align ((P64 - 1) + 16)) 32 = 18446744073709551632
    ∧ asizeOf (P64 - 1) ≠ MAXn (align ((P64 - 1) + 16)) 32 :=
  ⟨by decide, by decide, by decide⟩

/-- C6 (amended): for a nonzero request `n` small enough that the `size_t`
sum `n + 31` does not wrap (`n + 31 < 2^64`, i.e. every request except the
last 31 representable sizes), `malloc`'s adjusted size is `align(n + 16)`
with minimum 32; the fit search equals first-match over the classes from
`classOf(asize)` upward, each class scanned from its head — and the head
of a class is its most recent insertion; consequently any returned block's
size is at least the adjusted size. -/
theorem malloc_fit_search :
    (∀ n, 1 ≤ n → n + 31 < P64 → asizeOf n = MAXn (align (n + 16)) 32)
    ∧ (∀ seg asize, findFitL seg asize =
        ((((List.range 11).drop (iterate asize)).flatMap seg).find?
          (fun b => decide (asize ≤ b.2))))
    ∧ (∀ seg asize b, findFitL seg asize = some b → asize ≤ b.2)
    ∧ (∀ seg b, insertL seg b (iterate b.2) = b :: seg (iterate b.2)) := by
  refine ⟨?_, ?_, ?_, ?_⟩
  · intro n h hw
    unfold asizeOf align MAXn P64 at *
    split_ifs <;> omega
  · intro seg asize
    exact findClasses_eq_find seg asize _
  · intro seg asize b h
    rw [findFitL, findClasses_eq_find] at h
    have := List.find?_some h
    simpa using this
  · intro seg b
    simp [insertL]

/-- Witness for `malloc_fit_search` at concrete inputs. -/
theorem malloc_fit_search_w :
    (1 ≤ 5 ∧ 5 + 31 < P64 ∧ asizeOf 5 = MAXn (align (5 + 16)) 32) ∧
    (findFitL (fun i => if i = 4 then [(32, 256)] else []) 48 = some (32, 256)
      ∧ 48 ≤ (32, 256).2) :=
  ⟨⟨by decide, by decide, malloc_fit_search.1 5 (by decide) (by decide)⟩,
   ⟨by decide, malloc_fit_search.2.2.1
      (fun i => if i = 4 then [(32, 256)] else []) 48 (32, 256) (by decide)⟩⟩

/-! ## C3 and C7: coalescing, splitting and the physical invariants -/

/-- The last element reported by `getLast?` is a member. -/
theorem mem_of_getLast?_eq {α : Type} {l : List α} {x : α}
    (h : l.getLast? = some x) : x ∈ l := by
  obtain ⟨hne, rfl⟩ :=
    List.mem_getLast?_eq_getLast (show x ∈ l.getLast? by simp [h])
  exact List.getLast_mem hne

/-- Coalescing a block between internally-valid neighborhoods restores the
no-adjacent-free invariant around it: whichever neighbors were free are
absorbed, and the surviving boundaries are allocated. -/
theorem coalesceZ_chain (pre post : List Block) (b : Block)
    (hpre : noAdjFree pre) (hpost : noAdjFree post) :
    noAdjFree (coalesceZ pre b post).1 := by
  unfold noAdjFree at *
  rcases List.eq_nil_or_concat' pre with rfl | ⟨pr, p, rfl⟩
  · rcases post with _ | ⟨n, t⟩
    · simp [coalesceZ, prevFreeZ, nextFreeZ]
    · by_cases hn : n.alloc = true
      · have h1 : nextFreeZ (n :: t) = none := by simp [nextFreeZ, freeOpt, hn]
        simp only [coalesceZ, prevFreeZ, List.getLast?_nil, Option.bind, h1,
          List.nil_append]
        rw [List.chain'_cons']
        exact ⟨fun y hy => by simp_all, hpost⟩
      · have h1 : nextFreeZ (n :: t) = some n := by simp [nextFreeZ, freeOpt, hn]
        simp only [coalesceZ, prevFreeZ, List.getLast?_nil, Option.bind, h1,
          List.nil_append, List.tail_cons]
        rw [List.chain'_cons']
        rw [List.chain'_cons'] at hpost
        refine ⟨fun y hy => ?_, hpost.2⟩
        rcases hpost.1 y hy with h | h
        · simp_all
        · exact Or.inr h
  · have hgl : (pr ++ [p]).getLast? = some p := by simp
    have hprs : List.Chain' (fun x y => x.alloc = true ∨ y.alloc = true) pr ∧
        ∀ x ∈ pr.getLast?, x.alloc = true ∨ p.alloc = true := by
      rw [List.chain'_append] at hpre
      exact ⟨hpre.1, fun x hx => by simpa using hpre.2.2 x hx p (by simp)⟩
    by_cases hp : p.alloc = true
    · have h1 : prevFreeZ (pr ++ [p]) = none := by
        simp [prevFreeZ, freeOpt, hgl, hp]
      rcases post with _ | ⟨n, t⟩
      · simp only [coalesceZ, h1, nextFreeZ, List.head?_nil, Option.bind]
        rw [List.chain'_append]
        refine ⟨hpre, List.chain'_singleton b, ?_⟩
        intro x hx y hy
        simp only [hgl, Option.mem_def, Option.some.injEq] at hx
        subst hx
        exact Or.inl hp
      · by_cases hn : n.alloc = true
        · have h2 : nextFreeZ (n :: t) = none := by simp [nextFreeZ, freeOpt, hn]
          simp only [coalesceZ, h1, h2]
          rw [List.chain'_append]
          refine ⟨hpre, ?_, ?_⟩
          · rw [List.chain'_cons']
            exact ⟨fun y hy => by simp_all, hpost⟩
          · intro x hx y hy
            simp only [hgl, Option.mem_def, Option.some.injEq] at hx
            subst hx
            exact Or.inl hp
        · have h2 : nextFreeZ (n :: t) = some n := by simp [nextFreeZ, freeOpt, hn]
          simp only [coalesceZ, h1, h2, List.tail_cons]
          rw [List.chain'_append]
          rw [List.chain'_cons'] at hpost
          refine ⟨hpre, ?_, ?_⟩
          · rw [List.chain'_cons']
            refine ⟨fun y hy => ?_, hpost.2⟩
            rcases hpost.1 y hy with h | h
            · simp_all
            · exact Or.inr h
          · intro x hx y hy
            simp only [hgl, Option.mem_def, Option.some.injEq] at hx
            subst hx
            exact Or.inl hp
    · have h1 : prevFreeZ (pr ++ [p]) = some p := by
        simp [prevFreeZ, freeOpt, hgl, hp]
      have hdl : (pr ++ [p]).dropLast = pr := by simp
      rcases post with _ | ⟨n, t⟩
      · simp only [coalesceZ, h1, nextFreeZ, List.head?_nil, Option.bind, hdl]
        rw [List.chain'_append]
        refine ⟨hprs.1, List.chain'_singleton _, ?_⟩
        intro x hx y hy
        rcases hprs.2 x hx with h | h
        · exact Or.inl h
        · exact absurd h hp
      · by_cases hn : n.alloc = true
        · have h2 : nextFreeZ (n :: t) = none := by simp [nextFreeZ, freeOpt, hn]
          simp only [coalesceZ, h1, h2, hdl]
          rw [List.chain'_append]
          refine ⟨hprs.1, ?_, ?_⟩
          · rw [List.chain'_cons']
            exact ⟨fun y hy => by simp_all, hpost⟩
          · intro x hx y hy
            rcases hprs.2 x hx with h | h
            · exact Or.inl h
            · exact absurd h hp
        · have h2 : nextFreeZ (n :: t) = some n := by simp [nextFreeZ, freeOpt, hn]
          simp only [coalesceZ, h1, h2, hdl, List.tail_cons]
          rw [List.chain'_append]
          rw [List.chain'_cons'] at hpost
          refine ⟨hprs.1, ?_, ?_⟩
          · rw [List.chain'_cons']
            refine ⟨fun y hy => ?_, hpost.2⟩
            rcases hpost.1 y hy with h | h
            · simp_all
            · exact Or.inr h
          · intro x hx y hy
            rcases hprs.2 x hx with h | h
            · exact Or.inl h
            · exact absurd h hp

/-- The two sides of a heap around one block are themselves valid. -/
theorem chain_split (pre post : List Block) (b : Block)
    (hc : noAdjFree (pre ++ b :: post)) :
    noAdjFree pre ∧ noAdjFree post := by
  unfold noAdjFree at *
  rw [List.chain'_append] at hc
  exact ⟨hc.1, (List.chain'_cons'.mp hc.2.1).2⟩

/-- Every branch of `coalesce` registers the result exactly once. -/
theorem coalesceZ_once (pre post : List Block) (b : Block) :
    (coalesceZ pre b post).2 = 1 := by
  unfold coalesceZ
  rcases prevFreeZ pre with _ | p <;> rcases nextFreeZ post with _ | n <;> rfl

/-- Coalescing preserves the minimum-free-block-size invariant whenever the
handed block respects it. -/
theorem coalesceZ_minFree (pre post : List Block) (b : Block)
    (hb : b.alloc = false → 32 ≤ b.sz)
    (hpre : minFree pre) (hpost : minFree post) :
    minFree (coalesceZ pre b post).1 := by
  unfold coalesceZ
  have hpre2 : minFree pre.dropLast := fun x hx =>
    hpre x (List.dropLast_sublist pre |>.subset hx)
  have hpost2 : minFree post.tail := fun x hx =>
    hpost x (List.tail_sublist post |>.subset hx)
  have hnext : ∀ n, nextFreeZ post = some n → n ∈ post ∧ n.alloc = false := by
    intro n hx
    unfold nextFreeZ freeOpt at hx
    rcases post with _ | ⟨y, t⟩
    · simp at hx
    · simp only [List.head?_cons, Option.some_bind] at hx
      by_cases ha : y.alloc = true

      · rw [if_pos ha] at hx
        simp at hx
      · rw [if_neg ha] at hx
        obtain rfl := (Option.some.injEq _ _).mp hx
        exact ⟨List.mem_cons_self _ _, by simpa using ha⟩
  have hprev : ∀ p, prevFreeZ pre = some p → p ∈ pre ∧ p.alloc = false := by
    intro p hv
    unfold prevFreeZ freeOpt at hv
    rcases hgl : pre.getLast? with _ | y
    · rw [hgl] at hv
      simp at hv
    · rw [hgl] at hv
      simp only [Option.some_bind] at hv
      by_cases ha : y.alloc = true
      · rw [if_pos ha] at hv
        simp at hv
      · rw [if_neg ha] at hv
        obtain rfl := (Option.some.injEq _ _).mp hv
        exact ⟨mem_of_getLast?_eq hgl, by simpa using ha⟩
  rcases hv : prevFreeZ pre with _ | p <;> rcases hx : nextFreeZ post with _ | n
  · intro x hx2 hfree
    rcases List.mem_append.mp hx2 with h | h
    · exact hpre x h hfree
    · rcases List.mem_cons.mp h with rfl | h
      · exact hb hfree
      · exact hpost x h hfree
  · obtain ⟨hn1, hn2⟩ := hnext n hx
    intro x hx2 hfree
    rcases List.mem_append.mp hx2 with h | h
    · exact hpre x h hfree
    · rcases List.mem_cons.mp h with rfl | h
      · have := hpost n hn1 hn2
        show 32 ≤ b.sz + n.sz
        omega
      · exact hpost2 x h hfree
  · obtain ⟨hp1, hp2⟩ := hprev p hv
    intro x hx2 hfree
    rcases List.mem_append.mp hx2 with h | h
    · exact hpre2 x h hfree
    · rcases List.mem_cons.mp h with rfl | h
      · have := hpre p hp1 hp2
        show 32 ≤ p.sz + b.sz
        omega
      · exact hpost x h hfree
  · obtain ⟨hp1, hp2⟩ := hprev p hv
    intro x hx2 hfree
    rcases List.mem_append.mp hx2 with h | h
    · exact hpre2 x h hfree
    · rcases List.mem_cons.mp h with rfl | h
      · have := hpre p hp1 hp2
        show 32 ≤ p.sz + b.sz + n.sz
        omega
      · exact hpost2 x h hfree

/-- C3: after a `release` (free + coalesce), after an `allocate` placement
into a free block (split remainder handed to the coalescer), and after a
heap extension (fresh free block coalesced at the top), no two physically
adjacent blocks are both free; and each `coalesce` call registers the
resulting block in the free-list table exactly once. -/
theorem no_adjacent_free_blocks :
    (∀ pre post b, b.alloc = true → noAdjFree (pre ++ b :: post) →
      noAdjFree (freeZ pre b post).1)
    ∧ (∀ pre post b asize, b.alloc = false → noAdjFree (pre ++ b :: post) →
      noAdjFree (placeZ pre b post asize).1)
    ∧ (∀ h sz, noAdjFree h → noAdjFree (extendZ h sz).1)
    ∧ (∀ pre post b, (coalesceZ pre b post).2 = 1) := by
  refine ⟨?_, ?_, ?_, ?_⟩
  · intro pre post b _ hc
    obtain ⟨h1, h2⟩ := chain_split pre post b hc
    exact coalesceZ_chain pre post _ h1 h2
  · intro pre post b asize _ hc
    obtain ⟨h1, h2⟩ := chain_split pre post b hc
    unfold placeZ
    split
    · refine coalesceZ_chain _ post _ ?_ h2
      unfold noAdjFree at h1 ⊢
      rw [List.chain'_append]
      refine ⟨h1, List.chain'_singleton _, fun x hx y hy => ?_⟩
      simp only [List.head?_cons, Option.mem_def, Option.some.injEq] at hy
      rw [← hy]
      exact Or.inr rfl
    · unfold noAdjFree at h1 h2 ⊢
      rw [List.chain'_append, List.chain'_cons']
      refine ⟨h1, ⟨fun y hy => Or.inl rfl, h2⟩, fun x hx y hy => ?_⟩
      simp only [List.head?_cons, Option.mem_def, Option.some.injEq] at hy
      rw [← hy]
      exact Or.inr rfl
  · intro h sz hc
    exact coalesceZ_chain h [] _ hc (by unfold noAdjFree; simp)
  · exact coalesceZ_once

/-- Witness for `no_adjacent_free_blocks` at a concrete heap. -/
theorem no_adjacent_free_blocks_w :
    ((⟨32, true⟩ : Block).alloc = true
      ∧ noAdjFree ([⟨48, false⟩] ++ ⟨32, true⟩ :: [⟨64, true⟩])
      ∧ noAdjFree (freeZ [⟨48, false⟩] ⟨32, true⟩ [⟨64, true⟩]).1)
    ∧ (coalesceZ [⟨16, true⟩] ⟨32, false⟩ []).2 = 1 := by
  have hchain : noAdjFree ([⟨48, false⟩] ++ ⟨32, true⟩ :: [⟨64, true⟩]) := by
    unfold noAdjFree
    rw [List.cons_append, List.nil_append, List.chain'_cons, List.chain'_cons]
    exact ⟨Or.inr rfl, Or.inl rfl, List.chain'_singleton _⟩
  exact ⟨⟨rfl, hchain,
    no_adjacent_free_blocks.1 [⟨48, false⟩] [⟨64, true⟩] ⟨32, true⟩ rfl hchain⟩,
    no_adjacent_free_blocks.2.2.2 [⟨16, true⟩] [] ⟨32, false⟩⟩

/-- The `size_t` subtraction `csize - asize` is the plain difference on the
call path, where the fit search guarantees `asize ≤ csize`. -/
theorem subW_eq (a c : Nat) (h1 : c ≤ a) (h2 : a < P64) : subW a c = a - c := by
  unfold subW P64 at *
  omega

/-- C7: placement splits exactly when `csize - asize ≥ 32`; a split writes
an allocated block of size `asize` and hands the remainder, of size
`csize - asize ≥ 32`, to the coalescer, otherwise the whole block is
allocated unsplit — and no free block smaller than 32 bytes is ever
produced. -/
theorem place_split_policy : ∀ pre post (b : Block) asize,
    asize ≤ b.sz → b.sz < P64 →
    ((32 ≤ b.sz - asize →
        placeZ pre b post asize =
          coalesceZ (pre ++ [⟨asize, true⟩]) ⟨b.sz - asize, false⟩ post)
     ∧ (b.sz - asize < 32 →
        placeZ pre b post asize = (pre ++ ⟨b.sz, true⟩ :: post, 0))
     ∧ (minFree pre → minFree post →
        minFree (placeZ pre b post asize).1)) := by
  intro pre post b asize h1 h2
  have hs : subW b.sz asize = b.sz - asize := subW_eq b.sz asize h1 h2
  refine ⟨?_, ?_, ?_⟩
  · intro h32
    unfold placeZ
    rw [hs, if_pos h32]
  · intro h32
    unfold placeZ
    rw [hs, if_neg (by omega)]
  · intro hp1 hp2
    unfold placeZ
    rw [hs]
    by_cases h32 : 32 ≤ b.sz - asize
    · rw [if_pos h32]
      refine coalesceZ_minFree _ post _ (fun _ => h32) ?_ hp2
      intro x hx hfree
      rcases List.mem_append.mp hx with h | h
      · exact hp1 x h hfree
      · simp at h
        rw [h] at hfree
        simp at hfree
    · rw [if_neg h32]
      intro x hx hfree
      rcases List.mem_append.mp hx with h | h
      · exact hp1 x h hfree
      · rcases List.mem_cons.mp h with rfl | h
        · simp at hfree
        · exact hp2 x h hfree

/-- Witness for `place_split_policy` at a concrete block. -/
theorem place_split_policy_w :
    ((32 : Nat) ≤ 256 ∧ (256 : Nat) < P64)
    ∧ placeZ [] (⟨256, false⟩ : Block) [] 32 =
        coalesceZ ([] ++ [⟨32, true⟩]) ⟨256 - 32, false⟩ []
    ∧ minFree (placeZ [] (⟨256, false⟩ : Block) [] 32).1 := by
  have h := place_split_policy [] [] ⟨256, false⟩ 32 (by decide)
    (by unfold P64; decide)
  exact ⟨⟨by decide, by unfold P64; decide⟩, h.1 (by decide),
    h.2.2 (by intro x hx; simp at hx) (by intro x hx; simp at hx)⟩

/-! ## C10: `free` performs no null or validity check -/

/-- C10: `free` starts by reading the header word at `ptr - 8` — for any
pointer, including null — and a successful call requires that word to be
readable; with a null argument the header address is `2^64 - 8`, so
`free(NULL)` dereferences a wild address instead of being a no-op. -/
theorem free_no_null_check :
    (∀ s : WState, s.mem (hdrA 0) = none → freeW 0 s = none)
    ∧ (∀ p s, (freeW p s).isSome = true → (s.mem (hdrA p)).isSome = true)
    ∧ hdrA 0 = P64 - 8 := by
  refine ⟨?_, ?_, ?_⟩
  · intro s h
    unfold freeW
    rw [h]
  · intro p s h
    unfold freeW at h
    cases hm : s.mem (hdrA p)
    · rw [hm] at h
      simp at h
    · simp
  · rfl

/-- A state with no readable memory, for exercising the fault paths. -/
def blankState : WState where
  mem := fun _ => none
  seg := fun _ => 0
  brk := 0
  maxA := 0
  growOk := false

/-- Witness for `free_no_null_check`: on a state with no readable memory,
`free(NULL)` faults rather than returning unchanged. -/
theorem free_no_null_check_w :
    blankState.mem (hdrA 0) = none ∧ freeW 0 blankState = none :=
  ⟨rfl, free_no_null_check.1 blankState rfl⟩

/-! ## C9: `calloc` multiplies with wraparound and no overflow check -/

/-- C9: `calloc(nmemb, size)` computes `size * nmemb` in wrapping `size_t`
arithmetic and unconditionally requests that many bytes, zero-filling
exactly that many on success; whenever the true product is at least
`2^64` the requested count is the strictly smaller wrapped value.  The
concrete overflowing run `calloc(2^62 + 4, 8)` (true product `2^65 + 32`)
allocates a block for 32 bytes at address 32 and zero-fills exactly the
cells below 64, leaving the block's footer word at 64 intact. -/
theorem calloc_wrapping_mul :
    (∀ fuel nmemb n s, callocW fuel nmemb n s =
      match mallocW fuel ((n * nmemb) % P64) s with
      | none => none
      | some (p, s1) =>
        if p ≠ 0 then
          some (p, { s1 with mem := memsetW s1.mem p ((n * nmemb) % P64) })
        else some (p, s1))
    ∧ (∀ nmemb n : Nat, P64 ≤ n * nmemb → (n * nmemb) % P64 < n * nmemb)
    ∧ (((mmInitW 16 100000).bind (fun s0 => callocW 50 (2 ^ 62 + 4) 8 s0)).map
          Prod.fst = some 32
      ∧ ((mmInitW 16 100000).bind
          (fun s0 => callocW 50 (2 ^ 62 + 4) 8 s0)).bind
          (fun x => x.2.mem 63) = some 0
      ∧ ((mmInitW 16 100000).bind
          (fun s0 => callocW 50 (2 ^ 62 + 4) 8 s0)).bind
          (fun x => x.2.mem 64) = some 49) := by
  refine ⟨fun fuel nmemb n s => rfl, ?_, by decide, by decide, by decide⟩
  intro nmemb n h
  have hpos : 0 < P64 := by unfold P64; omega
  exact lt_of_lt_of_le (Nat.mod_lt _ hpos) h

/-- Witness for `calloc_wrapping_mul` at the concrete overflowing pair. -/
theorem calloc_wrapping_mul_w :
    P64 ≤ 8 * (2 ^ 62 + 4) ∧ (8 * (2 ^ 62 + 4)) % P64 < 8 * (2 ^ 62 + 4) :=
  ⟨by unfold P64; decide,
   calloc_wrapping_mul.2.1 (2 ^ 62 + 4) 8 (by unfold P64; decide)⟩

/-! ## C1: `realloc(NULL, n)` is not `malloc(n)` -/

/-- C1 (evidence of the code bug): from the freshly initialized heap,
`malloc(1)` returns the block at 32, but `realloc(NULL, 1)` returns 64:
the unconditional `update = malloc(size)` consumes the block at 32F and is
then leaked when the null branch calls `malloc(size)` again — the header
word of the leaked block (cell 24) stays allocated (`PACK(32,1) = 33`).
The `realloc(p, 0)` path does behave as `free(p)` followed by null: the
returned pointer is 0 and the freed block coalesces back into one 256-byte
free block (header `PACK(256,0) = 256`). -/
theorem realloc_null_double_malloc :
    ((mmInitW 16 100000).bind (fun s0 => mallocW 50 1 s0)).map Prod.fst
      = some 32
    ∧ ((mmInitW 16 100000).bind (fun s0 => reallocW 50 0 1 s0)).map Prod.fst
      = some 64
    ∧ ((mmInitW 16 100000).bind (fun s0 => reallocW 50 0 1 s0)).bind
        (fun x => x.2.mem 24) = some 33
    ∧ ((mmInitW 16 100000).bind (fun s0 => mallocW 50 1 s0)).bind
        (fun x => (reallocW 50 x.1 0 x.2).map Prod.fst) = some 0
    ∧ ((mmInitW 16 100000).bind (fun s0 => mallocW 50 1 s0)).bind
        (fun x => (reallocW 50 x.1 0 x.2).bind (fun y => y.2.mem 24))
      = some 256 :=
  ⟨by decide, by decide, by decide, by decide, by decide⟩

/-! ## C2: the byte count copied by `realloc` -/

/-- For a well-formed allocated header (16-aligned size `s`, at least the
minimum block size), the copied count is `min(s - 8, n)` — eight more than
the payload capacity allows when `n` exceeds it. -/
theorem updateSizeW_eq (s n : Nat) (ha : s % 16 = 0) (hb : 32 ≤ s)
    (hc : s < P64) : updateSizeW (packW s 1) n = MINn (s - 8) n := by
  have h1 : sizeW (packW s 1) = s := by
    unfold sizeW packW P64 at *
    omega
  have h2 : subW s 8 = s - 8 := by
    unfold subW P64 at *
    omega
  unfold updateSizeW
  rw [h1, h2]

/-- Reading inside the copied range of `memcpy` sees the source. -/
theorem memcpyW_read (m : Mem) (dst src cnt j : Nat) (hj : j < cnt) :
    memcpyW m dst src cnt (dst + j) = m (src + j) := by
  unfold memcpyW
  rw [if_pos (by omega)]
  congr 1
  omega

/-- C2 (counterexample): for an old block of total size 32 — payload
capacity 16 — and request `n = 20`, the code's copy count
`MIN(GET_SIZE(HDRP(oldptr)) - WSIZE, n)` is 20, not
`min(payload capacity, n) = 16`; concretely, after `malloc(1)` (block of
size 32 at address 32) and `realloc(p, 20)` the new block at 64 holds a
copy of the old block's footer word (`PACK(32,1) = 33`) at payload offset
16 — a 17th–20th byte that the claimed count would never copy. -/
theorem realloc_copy_count_cex :
    updateSizeW (packW 32 1) 20 = 20
    ∧ MINn (32 - 16) 20 = 16
    ∧ updateSizeW (packW 32 1) 20 ≠ MINn (32 - 16) 20
    ∧ ((mmInitW 16 100000).bind (fun s0 => mallocW 50 1 s0)).bind
        (fun x => (reallocW 50 x.1 20 x.2).map Prod.fst) = some 64
    ∧ ((mmInitW 16 100000).bind (fun s0 => mallocW 50 1 s0)).bind
        (fun x => (reallocW 50 x.1 20 x.2).bind (fun y => y.2.mem 80))
      = some 33 :=
  ⟨by decide, by decide, by decide, by decide, by decide⟩

/-- C2 (amended): a successful `resize(p, n)` with `p ≠ 0`, `n > 0`
allocates a brand-new block, copies `min(old block size - 8, n)` bytes
from the old block (up to 8 bytes of the old footer beyond the payload
capacity), releases the old block and returns the new pointer; in
particular the first `min(payload capacity, n)` payload bytes are
preserved, being a prefix of the copied range. -/
theorem realloc_copy_amended :
    (∀ s n, s % 16 = 0 → 32 ≤ s → s < P64 →
      updateSizeW (packW s 1) n = MINn (s - 8) n)
    ∧ (∀ (m : Mem) dst src s n j, s % 16 = 0 → 32 ≤ s → s < P64 →
        j < MINn (s - 16) n →
        memcpyW m dst src (updateSizeW (packW s 1) n) (dst + j) = m (src + j))
    ∧ (∀ fuel p n s q s1, p ≠ 0 → n ≠ 0 → mallocW fuel n s = some (q, s1) →
        reallocW fuel p n s =
          match s1.mem (hdrA p) with
          | none => none
          | some h =>
            match freeW p
                { s1 with mem := memcpyW s1.mem q p (updateSizeW h n) } with
            | none => none
            | some s3 => some (q, s3)) := by
  refine ⟨updateSizeW_eq, ?_, ?_⟩
  · intro m dst src s n j ha hb hc hj
    rw [updateSizeW_eq s n ha hb hc]
    refine memcpyW_read m dst src _ j ?_
    unfold MINn at hj ⊢
    split at hj <;> split <;> omega
  · intro fuel p n s q s1 hp hn hm
    unfold reallocW
    rw [hm]
    dsimp only
    rw [if_neg hp, if_neg hn]

/-- Witness for `realloc_copy_amended` at concrete values. -/
theorem realloc_copy_amended_w :
    ((32 : Nat) % 16 = 0 ∧ (32 : Nat) ≤ 32 ∧ (32 : Nat) < P64
      ∧ updateSizeW (packW 32 1) 20 = MINn (32 - 8) 20)
    ∧ ((5 : Nat) < MINn (32 - 16) 20
      ∧ memcpyW (fun _ => some 7) 100 0 (updateSizeW (packW 32 1) 20) (100 + 5)
        = (fun _ => (some 7 : Option Nat)) (0 + 5)) :=
  ⟨⟨by decide, by decide, by unfold P64; decide,
    realloc_copy_amended.1 32 20 (by decide) (by decide) (by unfold P64; decide)⟩,
   ⟨by decide,
    realloc_copy_amended.2.1 (fun _ => some 7) 100 0 32 20 5 (by decide)
      (by decide) (by unfold P64; decide) (by decide)⟩⟩

/-! ## C8: `delete` against the specification's remove description

A free-list class is represented by the list of its node addresses in list
order.  The checkers below state, as executable conditions, that the `seg`
array and the intrusive prev/next words in memory lay out exactly those
lists: each class head is `seg[i]` with a null prev word, consecutive nodes
point at each other, the last node's next word is null, and every node is a
nonzero 16-aligned payload address (as every real block payload is). -/

/-- A valid registered node: nonzero, 16-aligned. -/
def nodeOkB (a : Nat) : Bool := decide (a ≠ 0) && decide (a % 16 = 0)

/-- The stored next/prev words realize this chain of nodes. -/
def chainB (s : WState) : List Nat → Bool
  | [] => true
  | [a] => nodeOkB a && decide (s.mem (a + 8) = some 0)
  | a :: b :: t => nodeOkB a && decide (s.mem (a + 8) = some b) &&
      decide (s.mem b = some a) && chainB s (b :: t)

/-- Class `i` of the table holds exactly this list. -/
def classRepB (s : WState) (i : Nat) : List Nat → Bool
  | [] => decide (s.seg i = 0)
  | a :: t => decide (s.seg i = a) && decide (s.mem a = some 0) &&
      chainB s (a :: t)

/-- The whole free-list table holds the lists `ls`. -/
def segRepB (s : WState) (ls : Nat → List Nat) : Bool :=
  (List.range 11).all (fun i => classRepB s i (ls i))

/-- Modelled from the spec (§4.3 FreeListTable remove): if the block is the
head of some class, that class's head becomes the block's next link, and
the new head's prev link is cleared when it exists; otherwise the block is
spliced out through its own recorded links — the predecessor's next word
becomes the block's next, and if the next block exists its prev word
becomes the block's prev. -/
def removePerSpec (bp : Nat) (s : WState) : Option WState :=
  match (List.range 11).find? (fun i => s.seg i == bp) with
  | some i =>
    match s.mem (bp + 8) with
    | none => none
    | some nx =>
      let s1 : WState := { s with seg := updateSeg s.seg i nx }
      if nx ≠ 0 then some { s1 with mem := PUTW s1.mem nx 0 } else some s1
  | none =>
    match s.mem bp, s.mem (bp + 8) with
    | some p, some nx =>
      let m1 := PUTW s.mem (p + 8) nx
      if nx ≠ 0 then some { s with mem := PUTW m1 nx p }
      else some { s with mem := m1 }
    | _, _ => none

/-- Writes to distinct cells commute. -/
theorem PUTW_comm (m : Mem) (a b x y : Nat) (h : a ≠ b) :
    PUTW (PUTW m a x) b y = PUTW (PUTW m b y) a x := by
  funext z
  unfold PUTW
  by_cases h1 : z = b
  · by_cases h2 : z = a
    · exact absurd (h2 ▸ h1) h
    · simp [h1, h2, Ne.symm h]
  · by_cases h2 : z = a <;> simp [h1, h2, h, Ne.symm h]

/-- Every node of a realized chain is nonzero and 16-aligned. -/
theorem chainB_node (s : WState) :
    ∀ l, chainB s l = true → ∀ a ∈ l, a ≠ 0 ∧ a % 16 = 0 := by
  intro l
  induction l with
  | nil => intro h a ha; exact absurd ha (List.not_mem_nil a)
  | cons a t ih =>
    intro h b hb
    cases t with
    | nil =>
      simp only [chainB, nodeOkB, Bool.and_eq_true, decide_eq_true_eq] at h
      rcases List.mem_cons.mp hb with rfl | hb2
      · exact h.1
      · exact absurd hb2 (List.not_mem_nil b)
    | cons c t2 =>
      simp only [chainB, nodeOkB, Bool.and_eq_true, decide_eq_true_eq] at h
      rcases List.mem_cons.mp hb with rfl | hb2
      · exact h.1.1.1
      · exact ih h.2 b hb2

/-- A realized chain's head has a readable next word. -/
theorem chainB_next (s : WState) (a : Nat) (l : List Nat)
    (h : chainB s (a :: l) = true) : ∃ nx, s.mem (a + 8) = some nx := by
  cases l with
  | nil =>
    simp only [chainB, Bool.and_eq_true, decide_eq_true_eq] at h
    exact ⟨0, h.2⟩
  | cons b t =>
    simp only [chainB, Bool.and_eq_true, decide_eq_true_eq] at h
    exact ⟨b, h.1.1.2⟩

/-- Unfolding one link of a realized chain. -/
theorem chainB_tail (s : WState) (a b : Nat) (t : List Nat)
    (h : chainB s (a :: b :: t) = true) :
    ((a ≠ 0 ∧ a % 16 = 0) ∧ s.mem (a + 8) = some b) ∧ s.mem b = some a ∧
      chainB s (b :: t) = true := by
  simp only [chainB, nodeOkB, Bool.and_eq_true, decide_eq_true_eq] at h
  exact ⟨⟨h.1.1.1, h.1.1.2⟩, h.1.2, h.2⟩

/-- Every non-head node of a realized chain has a nonzero, aligned prev
word pointing at its predecessor and a readable next word that is null or
aligned. -/
theorem chainB_splice (s : WState) :
    ∀ (l : List Nat) (a : Nat), chainB s (a :: l) = true →
    ∀ bp ∈ l, ∃ p nx, s.mem bp = some p ∧ s.mem (bp + 8) = some nx ∧
      p ≠ 0 ∧ p % 16 = 0 ∧ (nx = 0 ∨ nx % 16 = 0) := by
  intro l
  induction l with
  | nil => intro a h bp hbp; exact absurd hbp (List.not_mem_nil bp)
  | cons b t ih =>
    intro a h bp hbp
    obtain ⟨⟨ha, hab⟩, hba, hrest⟩ := chainB_tail s a b t h
    rcases List.mem_cons.mp hbp with rfl | hbp2
    · obtain ⟨nx, hnx⟩ := chainB_next s bp t hrest
      refine ⟨a, nx, hba, hnx, ha.1, ha.2, ?_⟩
      cases t with
      | nil =>
        simp only [chainB, Bool.and_eq_true, decide_eq_true_eq] at hrest
        rw [hrest.2] at hnx
        exact Or.inl (Option.some.inj hnx).symm
      | cons c t2 =>
        obtain ⟨⟨hb2, hbc⟩, _, hrest2⟩ := chainB_tail s bp c t2 hrest
        rw [hbc] at hnx
        obtain rfl := Option.some.inj hnx
        have hcn := chainB_node s _ hrest2 _ (List.mem_cons_self c t2)
        exact Or.inr hcn.2
    · exact ih b hrest bp hbp2

/-- C8: for every block currently registered in the free-list table,
`delete` behaves exactly as the specification's remove description: a
class head is replaced by its next link (clearing the new head's prev when
it exists), and any other registered block is spliced out through its own
recorded prev/next links. -/
theorem delete_matches_remove_spec (s : WState) (ls : Nat → List Nat)
    (bp j : Nat) (hrep : segRepB s ls = true) (hj : j < 11)
    (hbp : bp ∈ ls j) : deleteW bp s = removePerSpec bp s := by
  have hclass : ∀ i, i < 11 → classRepB s i (ls i) = true := by
    intro i hi
    exact List.all_eq_true.mp hrep i (List.mem_range.mpr hi)
  have hj2 := hclass j hj
  rcases hl : ls j with _ | ⟨a, t⟩
  · rw [hl] at hbp
    exact absurd hbp (List.not_mem_nil bp)
  · rw [hl] at hj2 hbp
    have hj3 : s.seg j = a ∧ s.mem a = some 0 ∧ chainB s (a :: t) = true := by
      simp only [classRepB, Bool.and_eq_true, decide_eq_true_eq] at hj2
      exact ⟨hj2.1.1, hj2.1.2, hj2.2⟩
    by_cases hhead : bp = a
    · subst hhead
      cases hfind : (List.range 11).find? (fun i => s.seg i == bp) with
      | none =>
        exfalso
        have := List.find?_eq_none.mp hfind j (List.mem_range.mpr hj)
        simp [hj3.1] at this
      | some i =>
        obtain ⟨nx, hnx⟩ := chainB_next s bp t hj3.2.2
        unfold deleteW removePerSpec
        rw [hj3.2.1, hnx, hfind]
        dsimp only
        by_cases h0 : nx = 0
        · subst h0
          rw [if_neg (by simp), if_neg (by simp)]
        · rw [if_pos ⟨rfl, h0⟩, if_pos h0]
    · have hbp_t : bp ∈ t := by
        rcases List.mem_cons.mp hbp with rfl | h2
        · exact absurd rfl hhead
        · exact h2
      obtain ⟨p, nx, hp, hnx, hp0, hp16, hnxal⟩ :=
        chainB_splice s t a hj3.2.2 bp hbp_t
      have hbp0 : bp ≠ 0 :=
        (chainB_node s _ hj3.2.2 bp (List.mem_cons_of_mem a hbp_t)).1
      have hfind : (List.range 11).find? (fun i => s.seg i == bp) = none := by
        rw [List.find?_eq_none]
        intro i hi
        simp only [beq_iff_eq, decide_eq_true_eq]
        intro hcontra
        have hi11 : i < 11 := List.mem_range.mp hi
        have hci := hclass i hi11
        rcases hli : ls i with _ | ⟨a2, t2⟩
        · rw [hli] at hci
          simp only [classRepB, decide_eq_true_eq] at hci
          rw [hci] at hcontra
          exact hbp0 hcontra.symm
        · rw [hli] at hci
          simp only [classRepB, Bool.and_eq_true, decide_eq_true_eq] at hci
          have ha2 : a2 = bp := by rw [← hcontra, hci.1.1]
          rw [ha2] at hci
          rw [hci.1.2] at hp
          exact hp0 (Option.some.inj hp).symm
      unfold deleteW removePerSpec
      rw [hp, hnx, hfind]
      dsimp only
      by_cases h0 : nx = 0
      · subst h0
        rw [if_pos ⟨hp0, rfl⟩, if_neg (by simp)]
      · rw [if_neg (by simp [h0]), if_pos h0]
        have hne : nx ≠ p + 8 := by
          rcases hnxal with h2 | h2
          · exact absurd h2 h0
          · omega
        rw [PUTW_comm s.mem nx (p + 8) p nx hne]

/-- A concrete two-node free list in class 4: head 32, then 64. -/
def segStateW : WState where
  mem := fun a => if a = 32 then some 0 else if a = 40 then some 64
    else if a = 64 then some 32 else if a = 72 then some 0 else none
  seg := fun i => if i = 4 then 32 else 0
  brk := 0
  maxA := 0
  growOk := true

/-- The lists realized by `segStateW`. -/
def segListsW : Nat → List Nat := fun i => if i = 4 then [32, 64] else []

/-- Witness for `delete_matches_remove_spec`: deleting the non-head
registered block 64 from `segStateW`. -/
theorem delete_matches_remove_spec_w :
    segRepB segStateW segListsW = true ∧ 4 < 11 ∧ 64 ∈ segListsW 4
      ∧ deleteW 64 segStateW = removePerSpec 64 segStateW :=
  ⟨by decide, by decide, by decide,
   delete_matches_remove_spec segStateW segListsW 64 4 (by decide) (by decide)
     (by decide)⟩

/-! ## C4: when `malloc` returns null

`malloc(n)` returns null exactly for `n = 0` or when no fit exists and the
backing store cannot grow; and every null return leaves the allocator
state untouched.  The growth-failure condition of `mem_sbrk` for the
request `n` is: -/

/-- The backing store cannot supply the `extend_heap` request that
`malloc(n)` would make after a failed fit search. -/
def growFails (s : WState) (n : Nat) : Prop :=
  ¬(s.growOk = true ∧ s.brk + extSize (MAXn (asizeOf n) 32 / 8) ≤ s.maxA)

/-- A `(k, ·)`-shaped result determines its first component. -/
theorem map_pair_result (o : Option WState) (k r2 : Nat) (s2 : WState)
    (h : o.map (fun s => (k, s)) = some (r2, s2)) : r2 = k := by
  cases o with
  | none => exact absurd h (by simp)
  | some s1 =>
    simp only [Option.map_some', Option.some.injEq, Prod.mk.injEq] at h
    exact h.1.symm

/-- The pointer `coalesce` returns is the handed block or the physical
predecessor computed from the size field stored just below it. -/
theorem coalesceW_result (bp : Nat) (st : WState) (r2 : Nat) (s2 : WState)
    (h : coalesceW bp st = some (r2, s2)) :
    r2 = bp ∨ ∃ v, st.mem ((bp + P64 - 16) % P64) = some v ∧
      r2 = (bp + P64 - sizeW v) % P64 := by
  unfold coalesceW at h
  cases h1 : prevBlkpW st.mem bp with
  | none => rw [h1] at h; exact absurd h (by simp)
  | some pb =>
  rw [h1] at h
  simp only [Option.some_bind] at h
  have hpb : ∃ v, st.mem ((bp + P64 - 16) % P64) = some v ∧
      pb = (bp + P64 - sizeW v) % P64 := by
    unfold prevBlkpW at h1
    cases h7 : st.mem ((bp + P64 - 16) % P64) with
    | none => rw [h7] at h1; exact absurd h1 (by simp)
    | some v =>
      rw [h7] at h1
      refine ⟨v, rfl, ?_⟩
      have h1b : some ((bp + P64 - sizeW v) % P64) = some pb := h1
      exact (Option.some.inj h1b).symm
  cases h2 : ftrpW st.mem pb with
  | none => rw [h2] at h; exact absurd h (by simp)
  | some fpb =>
  rw [h2] at h
  simp only [Option.some_bind] at h
  cases h3 : st.mem fpb with
  | none => rw [h3] at h; exact absurd h (by simp)
  | some fv =>
  rw [h3] at h
  simp only [Option.some_bind] at h
  cases h4 : nextBlkpW st.mem bp with
  | none => rw [h4] at h; exact absurd h (by simp)
  | some nb =>
  rw [h4] at h
  simp only [Option.some_bind] at h
  cases h5 : st.mem (hdrA nb) with
  | none => rw [h5] at h; exact absurd h (by simp)
  | some hv =>
  rw [h5] at h
  simp only [Option.some_bind] at h
  cases h6 : st.mem (hdrA bp) with
  | none => rw [h6] at h; exact absurd h (by simp)
  | some hh =>
  rw [h6] at h
  simp only [Option.some_bind] at h
  split at h
  · exact Or.inl (map_pair_result _ _ _ _ h)
  · split at h
    · exact Or.inl (map_pair_result _ _ _ _ h)
    · split at h
      · cases h8 : st.mem (hdrA pb) with
        | none => rw [h8] at h; exact absurd h (by simp)
        | some ph =>
          rw [h8] at h
          simp only [Option.some_bind] at h
          obtain ⟨v, hv1, hv2⟩ := hpb
          exact Or.inr ⟨v, hv1, (map_pair_result _ _ _ _ h) ▸ hv2 ▸ rfl⟩
      · cases h8 : st.mem (hdrA pb) with
        | none => rw [h8] at h; exact absurd h (by simp)
        | some ph =>
        rw [h8] at h
        simp only [Option.some_bind] at h
        cases h9 : ftrpW st.mem nb with
        | none => rw [h9] at h; exact absurd h (by simp)
        | some fnb =>
        rw [h9] at h
        simp only [Option.some_bind] at h
        cases h10 : st.mem fnb with
        | none => rw [h10] at h; exact absurd h (by simp)
        | some fnv =>
        rw [h10] at h
        simp only [Option.some_bind] at h
        obtain ⟨v, hv1, hv2⟩ := hpb
        exact Or.inr ⟨v, hv1, (map_pair_result _ _ _ _ h) ▸ hv2 ▸ rfl⟩

theorem memSbrkW_ok (incr : Nat) (s : WState)
    (h : s.growOk = true ∧ s.brk + incr ≤ s.maxA) :
    memSbrkW incr s = (s.brk, { s with brk := s.brk + incr }) := by
  unfold memSbrkW
  rw [if_pos h]

theorem memSbrkW_fail (incr : Nat) (s : WState)
    (h : ¬(s.growOk = true ∧ s.brk + incr ≤ s.maxA)) :
    memSbrkW incr s = (P64 - 1, s) := by
  unfold memSbrkW
  rw [if_neg h]

theorem extSize_facts (w : Nat) (hw : 4 ≤ w) :
    extSize w % 16 = 0 ∧ 32 ≤ extSize w := by
  unfold extSize
  split <;> omega

theorem sizeW_pack0 (size : Nat) (h1 : size % 16 = 0) (h2 : size < P64) :
    sizeW (packW size 0) = size := by
  unfold sizeW packW P64 at *
  omega

theorem size_lt_P64 (bp size : Nat) (h1 : 32 ≤ bp) (h2 : bp + size ≤ P64) :
    size < P64 := by
  unfold P64 at *
  omega

theorem ne_sentinel (B e : Nat) (h3 : 32 ≤ e) (h2 : B + e ≤ P64) :
    ¬ B = P64 - 1 := by
  unfold P64 at *
  omega

theorem lt_P64_of (B e : Nat) (h2 : B + e ≤ P64) (h3 : 32 ≤ e) : B < P64 := by
  unfold P64 at *
  omega

theorem ne_f_hdr (B e : Nat) (h1 : 32 ≤ B) (h2 : 32 ≤ e) (h3 : B + e ≤ P64) :
    ¬ hdrA B = (B + e + P64 - 16) % P64 := by
  unfold hdrA P64 at *
  omega

theorem cell_eq (B : Nat) (h1 : 32 ≤ B) (h2 : B < P64) :
    (B + P64 - 16) % P64 = B - 16 := by
  unfold P64 at *
  omega

theorem ne_c_hdr (B : Nat) (h1 : 32 ≤ B) (h2 : B < P64) :
    ¬ B - 16 = hdrA B := by
  unfold hdrA P64 at *
  omega

theorem ne_c_f (B e : Nat) (h1 : 32 ≤ B) (h2 : 32 ≤ e) (h3 : B + e ≤ P64) :
    ¬ B - 16 = (B + e + P64 - 16) % P64 := by
  unfold P64 at *
  omega

theorem ne_c_epi (B e : Nat) (h1 : 32 ≤ B) (h2 : 32 ≤ e) (h3 : B + e ≤ P64) :
    ¬ B - 16 = hdrA ((B + e) % P64) := by
  unfold hdrA P64 at *
  omega

theorem modsub_pos (B x : Nat) (h1 : x < B) (h2 : B < P64) :
    0 < (B + P64 - x) % P64 := by
  unfold P64 at *
  omega

theorem maxn32_div8 (x : Nat) : 4 ≤ MAXn x 32 / 8 := by
  unfold MAXn
  split <;> omega

/-- Growth failure: `extend_heap` reports null and leaves the state
untouched. -/
theorem extendHeapW_fail (w : Nat) (s : WState)
    (h : ¬(s.growOk = true ∧ s.brk + extSize w ≤ s.maxA)) :
    extendHeapW w s = some (0, s) := by
  unfold extendHeapW
  rw [memSbrkW_fail _ _ h]
  dsimp only
  rw [if_pos rfl]

/-- Growth success: `extend_heap` proceeds to write the new block's frame
over the fresh region and coalesce it. -/
theorem extendHeapW_ok_eq (w : Nat) (s : WState)
    (hc : s.growOk = true ∧ s.brk + extSize w ≤ s.maxA)
    (hne : ¬ s.brk = P64 - 1) :
    extendHeapW w s =
      extendCore s.brk (extSize w) { s with brk := s.brk + extSize w } := by
  unfold extendHeapW
  rw [memSbrkW_ok _ _ hc]
  dsimp only
  rw [if_neg hne]

/-- The pointer the successful tail of `extend_heap` hands back is a
nonzero payload address: either the fresh region's start or a physical
predecessor strictly below it. -/
theorem extendCore_pos (bp size : Nat) (s1 : WState) (bp2 : Nat)
    (s3 : WState) (h16 : size % 16 = 0) (h32 : 32 ≤ size) (hbp : 32 ≤ bp)
    (hsum : bp + size ≤ P64)
    (hsz : ∀ v, s1.mem (bp - 16) = some v → sizeW v < bp)
    (h : extendCore bp size s1 = some (bp2, s3)) : 0 < bp2 := by
  have hlt : size < P64 := size_lt_P64 bp size hbp hsum
  have hbpP : bp < P64 := lt_P64_of bp size hsum h32
  unfold extendCore at h
  have e1 : (PUTW s1.mem (hdrA bp) (packW size 0)) (hdrA bp)
      = some (packW size 0) := by
    unfold PUTW
    rw [if_pos rfl]
  have e2 : ftrpW (PUTW s1.mem (hdrA bp) (packW size 0)) bp
      = some ((bp + size + P64 - 16) % P64) := by
    unfold ftrpW
    rw [e1]
    simp only [Option.map_some', sizeW_pack0 size h16 hlt]
  rw [e2, Option.some_bind] at h
  have e3 : (PUTW (PUTW s1.mem (hdrA bp) (packW size 0))
      ((bp + size + P64 - 16) % P64) (packW size 0)) (hdrA bp)
      = some (packW size 0) := by
    unfold PUTW
    rw [if_neg (ne_f_hdr bp size hbp h32 hsum), if_pos rfl]
  have e4 : nextBlkpW (PUTW (PUTW s1.mem (hdrA bp) (packW size 0))
      ((bp + size + P64 - 16) % P64) (packW size 0)) bp
      = some ((bp + size) % P64) := by
    unfold nextBlkpW
    rw [e3]
    simp only [Option.map_some', sizeW_pack0 size h16 hlt]
  rw [e4, Option.some_bind] at h
  rcases coalesceW_result _ _ _ _ h with h2 | ⟨v, hv1, hv2⟩
  · omega
  · rw [cell_eq bp hbp hbpP] at hv1
    dsimp only at hv1
    unfold PUTW at hv1
    rw [if_neg (ne_c_epi bp size hbp h32 hsum),
      if_neg (ne_c_f bp size hbp h32 hsum), if_neg (ne_c_hdr bp hbp hbpP)]
      at hv1
    have h7 := hsz v hv1
    rw [hv2]
    exact modsub_pos bp (sizeW v) h7 hbpP

set_option maxRecDepth 4000 in
/-- The wrapper: a successful `extend_heap` never returns null. -/
theorem extendHeapW_pos (w : Nat) (s : WState) (bp2 : Nat) (s3 : WState)
    (hw : 4 ≤ w) (hbrk : 32 ≤ s.brk) (hmax : s.maxA ≤ P64)
    (hsz : ∀ a v, s.mem a = some v → sizeW v < s.brk)
    (hc : s.growOk = true ∧ s.brk + extSize w ≤ s.maxA)
    (h : extendHeapW w s = some (bp2, s3)) : 0 < bp2 := by
  obtain ⟨hal, h32⟩ := extSize_facts w hw
  have hsum : s.brk + extSize w ≤ P64 := le_trans hc.2 hmax
  rw [extendHeapW_ok_eq w s hc (ne_sentinel _ _ h32 hsum)] at h
  refine extendCore_pos s.brk (extSize w) _ bp2 s3 hal h32 hbrk hsum ?_ h
  intro v hv
  exact hsz _ v hv

/-- The `malloc`-level characterization: null exactly for a zero request
or fit-failure-plus-growth-failure, and null returns leave the state
untouched. -/
theorem mallocW_null_iff (fuel n : Nat) (s : WState) (r : Nat) (s2 : WState)
    (hbrk : 32 ≤ s.brk) (hmax : s.maxA ≤ P64)
    (hsz : ∀ a v, s.mem a = some v → sizeW v < s.brk)
    (hrun : mallocW fuel n s = some (r, s2)) :
    (r = 0 ↔ (n = 0 ∨ (findFitW fuel s (asizeOf n) = some 0 ∧ growFails s n)))
      ∧ (r = 0 → s2 = s) := by
  unfold mallocW at hrun
  by_cases hn : n = 0
  · rw [if_pos hn] at hrun
    simp only [Option.some.injEq, Prod.mk.injEq] at hrun
    obtain ⟨h1, h2⟩ := hrun
    subst h1
    subst h2
    exact ⟨iff_of_true rfl (Or.inl hn), fun _ => rfl⟩
  · rw [if_neg hn] at hrun
    dsimp only at hrun
    cases hf : findFitW fuel s (asizeOf n) with
    | none => rw [hf] at hrun; exact absurd hrun (by simp)
    | some bp =>
      rw [hf] at hrun
      dsimp only at hrun
      by_cases hbp : bp = 0
      · subst hbp
        rw [if_neg (by simp)] at hrun
        cases he : extendHeapW (MAXn (asizeOf n) 32 / 8) s with
        | none => rw [he] at hrun; exact absurd hrun (by simp)
        | some pr =>
          obtain ⟨bp2, s3⟩ := pr
          rw [he] at hrun
          dsimp only at hrun
          by_cases hb2 : bp2 = 0
          · subst hb2
            rw [if_pos rfl] at hrun
            simp only [Option.some.injEq, Prod.mk.injEq] at hrun
            obtain ⟨h1, h2⟩ := hrun
            subst h1
            subst h2
            by_cases hgf : growFails s n
            · have hfail := extendHeapW_fail _ _ hgf
              rw [he] at hfail
              simp only [Option.some.injEq, Prod.mk.injEq, true_and] at hfail
              exact ⟨iff_of_true rfl (Or.inr ⟨rfl, hgf⟩), fun _ => hfail⟩
            · exfalso
              have hcond : s.growOk = true ∧
                  s.brk + extSize (MAXn (asizeOf n) 32 / 8) ≤ s.maxA :=
                not_not.mp hgf
              have := extendHeapW_pos _ _ _ _ (maxn32_div8 (asizeOf n)) hbrk
                hmax hsz hcond he
              omega
          · rw [if_neg hb2] at hrun
            cases hp : placeW bp2 (asizeOf n) s3 with
            | none => rw [hp] at hrun; exact absurd hrun (by simp)
            | some s4 =>
              rw [hp] at hrun
              simp only [Option.some.injEq, Prod.mk.injEq] at hrun
              refine ⟨⟨fun h0 => absurd (hrun.1.trans h0) hb2, fun hrhs => ?_⟩,
                fun h0 => absurd (hrun.1.trans h0) hb2⟩
              rcases hrhs with h0 | ⟨_, hgf⟩
              · exact absurd h0 hn
              · have hfail := extendHeapW_fail _ _ hgf
                rw [he] at hfail
                simp only [Option.some.injEq, Prod.mk.injEq] at hfail
                exact absurd hfail.1 hb2
      · rw [if_pos hbp] at hrun
        cases hp : placeW bp (asizeOf n) s with
        | none => rw [hp] at hrun; exact absurd hrun (by simp)
        | some s1 =>
          rw [hp] at hrun
          simp only [Option.some.injEq, Prod.mk.injEq] at hrun
          refine ⟨⟨fun h0 => absurd (hrun.1.trans h0) hbp, fun hrhs => ?_⟩,
            fun h0 => absurd (hrun.1.trans h0) hbp⟩
          rcases hrhs with h0 | ⟨hfit, _⟩
          · exact absurd h0 hn
          · exact absurd (Option.some.inj hfit) hbp

/-- C4: `allocate(n)` returns null exactly when `n = 0` or when the fit
search fails and the backing-store growth fails; a failed growth returns
null with the allocator state — memory, size-class table and heap bounds —
exactly as it was, and so does every null-returning `malloc` call. -/
theorem malloc_null_characterization :
    (∀ w st, ¬(st.growOk = true ∧ st.brk + extSize w ≤ st.maxA) →
      extendHeapW w st = some (0, st))
    ∧ (∀ fuel n s r s2, 32 ≤ s.brk → s.maxA ≤ P64 →
        (∀ a v, s.mem a = some v → sizeW v < s.brk) →
        mallocW fuel n s = some (r, s2) →
        ((r = 0 ↔
            (n = 0 ∨ (findFitW fuel s (asizeOf n) = some 0 ∧ growFails s n)))
          ∧ (r = 0 → s2 = s))) :=
  ⟨extendHeapW_fail, mallocW_null_iff⟩

/-- A minimal well-formed empty-memory state for exercising `malloc`. -/
def initBrkState : WState where
  mem := fun _ => none
  seg := fun _ => 0
  brk := 32
  maxA := 64
  growOk := true

/-- Witness for `malloc_null_characterization` at concrete states. -/
theorem malloc_null_characterization_w :
    (¬(blankState.growOk = true ∧ blankState.brk + extSize 4 ≤ blankState.maxA)
      ∧ extendHeapW 4 blankState = some (0, blankState))
    ∧ (32 ≤ initBrkState.brk ∧ initBrkState.maxA ≤ P64
      ∧ mallocW 1 0 initBrkState = some (0, initBrkState)
      ∧ (((0 : Nat) = 0 ↔ ((0 : Nat) = 0 ∨
            (findFitW 1 initBrkState (asizeOf 0) = some 0
              ∧ growFails initBrkState 0)))
        ∧ ((0 : Nat) = 0 → initBrkState = initBrkState))) := by
  have hgf : ¬(blankState.growOk = true
      ∧ blankState.brk + extSize 4 ≤ blankState.maxA) := by decide
  have h1 : 32 ≤ initBrkState.brk := by decide
  have h2 : initBrkState.maxA ≤ P64 := by decide
  have h3 : ∀ a v, initBrkState.mem a = some v → sizeW v < initBrkState.brk := by
    intro a v h
    simp [initBrkState] at h
  have h4 : mallocW 1 0 initBrkState = some (0, initBrkState) := rfl
  exact ⟨⟨hgf, malloc_null_characterization.1 4 blankState hgf⟩,
    h1, h2, h4, malloc_null_characterization.2 1 0 initBrkState 0 initBrkState
      h1 h2 h3 h4⟩

end MM
